import Mathlib

/-!
Shallow embedding of the Novice League leaderboard pipeline (src/Dash.py).

Modelling conventions:
* A participant record mirrors one row of the cleaned dataframe handed to
  `process_novice`: `Name` is always present (ingestion filters it), `Sex`
  may be NaN (modelled `Option String`, `none` = NaN, whose Python `str()`
  rendering is "nan"), `Age` may be NaN (`Option Int`), `Dots` is a numeric
  score (modelled `Int`), `Date` may be NaT (`Option Int`, `none` = NaT).
* `df.sort_values("Date")` places NaT last (pandas default na_position);
  it is modelled as a stable insertion sort with NaT greatest.  (pandas
  uses an unstable quicksort; order among exactly equal dates is not
  guaranteed by the source.  The stable model matches the spec's stated
  tie policy.)
* `df.groupby("Name").cumcount()` followed by `df[df["Appearances"] <= 3]`
  is modelled by `capAppearances`: walk the date-sorted list, keep a record
  iff fewer than 3 earlier records share its Name.
* `df.groupby(["Name","Sex","Division"], as_index=False)["Dots"].sum()`
  drops rows whose Sex or Division is NaN/None (pandas groupby dropna
  default) and emits one row per remaining distinct key, keys sorted
  ascending, each with the sum of its group's Dots.
* `.sort_values("Dots", ascending=False)` is modelled as a stable
  insertion sort descending by Dots (same caveat as above).
* `agg.groupby("Division")["Dots"].rank(ascending=False, method="min")`
  assigns row x the rank 1 + (number of rows in x's division with strictly
  larger Dots); modelled as `Nat` (pandas returns the same values as
  integral floats).
-/

structure Rec where
  name : String
  sex : Option String
  age : Option Int
  score : Int
  date : Option Int
deriving DecidableEq

/-- Python's str() applied to the Sex cell: NaN prints as "nan". -/
def sexStr (sex : Option String) : String :=
  match sex with
  | none => "nan"
  | some s => s

/-- Whitespace stripped by Python str.strip(). -/
def isPyWhite (c : Char) : Bool :=
  c = ' ' || c = '\t' || c = '\n' || c = '\r' || c = '\x0b' || c = '\x0c'

/-- Python str.strip(): drop leading and trailing whitespace.  Modelled on
the character list (the built-in String primitives do not reduce in the
kernel). -/
def pyStrip (l : List Char) : List Char :=
  ((l.dropWhile isPyWhite).reverse.dropWhile isPyWhite).reverse

/-- Python str.upper() on one character (ASCII case mapping, written as
an explicit table; other characters are unchanged). -/
def upperChar (c : Char) : Char :=
  if c = 'a' then 'A' else if c = 'b' then 'B' else if c = 'c' then 'C'
  else if c = 'd' then 'D' else if c = 'e' then 'E' else if c = 'f' then 'F'
  else if c = 'g' then 'G' else if c = 'h' then 'H' else if c = 'i' then 'I'
  else if c = 'j' then 'J' else if c = 'k' then 'K' else if c = 'l' then 'L'
  else if c = 'm' then 'M' else if c = 'n' then 'N' else if c = 'o' then 'O'
  else if c = 'p' then 'P' else if c = 'q' then 'Q' else if c = 'r' then 'R'
  else if c = 's' then 'S' else if c = 't' then 'T' else if c = 'u' then 'U'
  else if c = 'v' then 'V' else if c = 'w' then 'W' else if c = 'x' then 'X'
  else if c = 'y' then 'Y' else if c = 'z' then 'Z' else c

/-- Python str.startswith("M"): the first character is M. -/
def pyStartsWithM (l : List Char) : Bool :=
  match l with
  | [] => false
  | c :: _ => c = 'M'

/-- Sex bucket of assign_division: strip, upper-case, test leading "M". -/
def sexBucket (sex : Option String) : String :=
  if pyStartsWithM ((pyStrip (sexStr sex).data).map upperChar) then "Men"
  else "Women"

/-- Age band of assign_division: under 24 Junior, under 40 Open, else Masters. -/
def ageBand (a : Int) : String :=
  if a < 24 then "Junior" else if a < 40 then "Open" else "Masters"

/-- assign_division from src/Dash.py: None when Age is NaN, otherwise
the label "AgeBand SexBucket". -/
def assign_division (r : Rec) : Option String :=
  match r.age with
  | none => none
  | some a => some (ageBand a ++ " " ++ sexBucket r.sex)

/-- A record tagged with its Division column. -/
abbrev TRec := Rec × Option String

/-- The df.apply(assign_division, axis=1) step. -/
def classify (l : List Rec) : List TRec :=
  l.map (fun r => (r, assign_division r))

/-- Date order with NaT greatest (pandas na_position last). -/
def dateLe (d₁ d₂ : Option Int) : Bool :=
  match d₁, d₂ with
  | some a, some b => a ≤ b
  | some _, none => true
  | none, some _ => false
  | none, none => true

def tdateLe (a b : TRec) : Bool := dateLe a.1.date b.1.date

/-- Propositional form of the record date order. -/
def tdateLeP (a b : TRec) : Prop := tdateLe a b = true

instance : DecidableRel tdateLeP :=
  fun a b => inferInstanceAs (Decidable (tdateLe a b = true))

instance : IsTrans TRec tdateLeP :=
  ⟨fun a b c hab hbc => by
    rw [tdateLeP, tdateLe] at *
    revert hab hbc
    cases a.1.date <;> cases b.1.date <;> cases c.1.date <;>
      simp [dateLe] <;> omega⟩

instance : IsTotal TRec tdateLeP :=
  ⟨fun a b => by
    rw [tdateLeP, tdateLeP, tdateLe, tdateLe]
    cases a.1.date <;> cases b.1.date <;> simp [dateLe] <;> omega⟩

/-- The df.sort_values("Date") step (stable model). -/
def sortByDate (l : List TRec) : List TRec :=
  List.insertionSort tdateLeP l

/-- Number of records in l carrying the given Name. -/
def countName (nm : String) (l : List TRec) : Nat :=
  (l.filter (fun t => t.1.name = nm)).length

/-- Walk the list keeping a record iff fewer than 3 records of the same
Name precede it (prior accumulates everything already walked, kept or
not, mirroring groupby("Name").cumcount() which numbers every row). -/
def capFrom (prior : List TRec) : List TRec → List TRec
  | [] => []
  | x :: xs =>
    if countName x.1.name prior < 3 then x :: capFrom (prior ++ [x]) xs
    else capFrom (prior ++ [x]) xs

/-- The cumcount-and-filter step: keep first 3 appearances per Name. -/
def capAppearances (l : List TRec) : List TRec := capFrom [] l

/-- The appearance limiter as the source composes it: sort by Date, then
keep each Name's first 3 rows. -/
def limiter (l : List TRec) : List TRec := capAppearances (sortByDate l)

/-- Classified, date-sorted, appearance-capped records of an input. -/
def cappedOf (l : List Rec) : List TRec := limiter (classify l)

/-- Grouping key of the aggregation: (Name, Sex, Division). -/
abbrev Key := String × String × String

/-- The groupby key of a row, None when Sex or Division is NaN/None
(pandas groupby drops such rows). -/
def validKey (t : TRec) : Option Key :=
  match t.1.sex, t.2 with
  | some s, some d => some (t.1.name, s, d)
  | _, _ => none

/-- Code-point lexicographic order on character lists (Python string
comparison; the built-in String order is kernel-opaque). -/
def charsLt : List Char → List Char → Bool
  | [], [] => false
  | [], _ :: _ => true
  | _ :: _, [] => false
  | a :: as, b :: bs =>
    if a.toNat < b.toNat then true
    else if b.toNat < a.toNat then false
    else charsLt as bs

/-- Python string less-than on the underlying characters. -/
def strLt (a b : String) : Bool := charsLt a.data b.data

/-- Lexicographic order on keys, mirroring pandas sorting group keys
ascending as Python tuples. -/
def keyLe (a b : Key) : Bool :=
  if a.1 ≠ b.1 then strLt a.1 b.1
  else if a.2.1 ≠ b.2.1 then strLt a.2.1 b.2.1
  else strLt a.2.2 b.2.2 || decide (a.2.2 = b.2.2)

/-- Propositional form of the key order. -/
def keyLeP (a b : Key) : Prop := keyLe a b = true

instance : DecidableRel keyLeP :=
  fun a b => inferInstanceAs (Decidable (keyLe a b = true))

/-- Distinct group keys realized in the capped set, in ascending order
(the keys are pairwise distinct, so any correct sort produces the same
ascending sequence pandas does). -/
def keysOf (l : List TRec) : List Key :=
  List.insertionSort keyLeP ((l.filterMap validKey).dedup)

/-- Sum of Dots over the rows of one group. -/
def sumDots (k : Key) (l : List TRec) : Int :=
  ((l.filter (fun t => validKey t = some k)).map (fun t => t.1.score)).sum

structure AggRow where
  name : String
  sex : String
  division : String
  dots : Int
deriving DecidableEq

/-- The groupby-sum step: one row per distinct (Name, Sex, Division). -/
def aggRows (l : List TRec) : List AggRow :=
  (keysOf l).map (fun k => ⟨k.1, k.2.1, k.2.2, sumDots k l⟩)

def dotsGe (a b : AggRow) : Bool := b.dots ≤ a.dots

/-- Propositional form of the descending score order. -/
def dotsGeP (a b : AggRow) : Prop := dotsGe a b = true

instance : DecidableRel dotsGeP :=
  fun a b => inferInstanceAs (Decidable (dotsGe a b = true))

instance : IsTrans AggRow dotsGeP :=
  ⟨fun a b c hab hbc => by
    simp [dotsGeP, dotsGe] at *
    omega⟩

instance : IsTotal AggRow dotsGeP :=
  ⟨fun a b => by
    simp [dotsGeP, dotsGe]
    omega⟩

/-- The sort_values("Dots", ascending=False) step (stable model). -/
def sortAgg (rows : List AggRow) : List AggRow :=
  List.insertionSort dotsGeP rows

structure RankedRow where
  name : String
  sex : String
  division : String
  dots : Int
  rank : Nat
deriving DecidableEq

/-- Rank of row x among rows: minimum-method rank within x's Division,
descending by Dots. -/
def rankOf (rows : List AggRow) (x : AggRow) : Nat :=
  (rows.filter (fun y => y.division = x.division && x.dots < y.dots)).length + 1

/-- The rank-assignment step. -/
def rankStage (rows : List AggRow) : List RankedRow :=
  rows.map (fun x => ⟨x.name, x.sex, x.division, x.dots, rankOf rows x⟩)

/-- process_novice from src/Dash.py: classify, sort by date, cap
appearances per Name, aggregate by (Name, Sex, Division), sort by Dots
descending, rank within Division. -/
def process_novice (l : List Rec) : List RankedRow :=
  rankStage (sortAgg (aggRows (cappedOf l)))

/-- Total score attributed to a Name in the final table (sum over that
Name's output rows). -/
def totalScoreOf (out : List RankedRow) (nm : String) : Int :=
  ((out.filter (fun row => row.name = nm)).map (fun row => row.dots)).sum

theorem countName_append (nm : String) (l₁ l₂ : List TRec) :
    countName nm (l₁ ++ l₂) = countName nm l₁ + countName nm l₂ := by
  simp [countName, List.filter_append]

theorem countName_cons (nm : String) (x : TRec) (l : List TRec) :
    countName nm (x :: l) =
      (if x.1.name = nm then 1 else 0) + countName nm l := by
  by_cases h : x.1.name = nm <;> simp [countName, List.filter_cons, h, Nat.add_comm]

theorem capFrom_filter (nm : String) :
    ∀ (l prior : List TRec),
      (capFrom prior l).filter (fun t => t.1.name = nm)
        = (l.filter (fun t => t.1.name = nm)).take (3 - countName nm prior)
  | [], prior => by simp [capFrom]
  | x :: xs, prior => by
    rw [capFrom]
    have happ : countName nm (prior ++ [x])
        = countName nm prior + (if x.1.name = nm then 1 else 0) := by
      rw [countName_append, countName_cons]
      simp [countName]
    by_cases hx : x.1.name = nm
    · have hcount : countName x.1.name prior = countName nm prior := by rw [hx]
      by_cases hlt : countName x.1.name prior < 3
      · rw [if_pos hlt]
        have h3 : 3 - countName nm prior = (3 - countName nm (prior ++ [x])) + 1 := by
          rw [happ, if_pos hx]
          omega
        rw [List.filter_cons_of_pos (by simp [hx]),
            List.filter_cons_of_pos (by simp [hx]), h3, List.take_succ_cons,
            capFrom_filter nm xs (prior ++ [x])]
      · rw [if_neg hlt]
        have h0 : 3 - countName nm prior = 0 := by omega
        have h0' : 3 - countName nm (prior ++ [x]) = 0 := by
          rw [happ]; omega
        rw [capFrom_filter nm xs (prior ++ [x]), h0, h0', List.take_zero,
            List.take_zero]
    · have heq : countName nm (prior ++ [x]) = countName nm prior := by
        rw [happ, if_neg hx]; omega
      by_cases hlt : countName x.1.name prior < 3
      · rw [if_pos hlt, List.filter_cons_of_neg (by simp [hx]),
            List.filter_cons_of_neg (by simp [hx]),
            capFrom_filter nm xs (prior ++ [x]), heq]
      · rw [if_neg hlt, List.filter_cons_of_neg (by simp [hx]),
            capFrom_filter nm xs (prior ++ [x]), heq]

theorem capAppearances_filter (nm : String) (l : List TRec) :
    (capAppearances l).filter (fun t => t.1.name = nm)
      = (l.filter (fun t => t.1.name = nm)).take 3 := by
  rw [capAppearances, capFrom_filter]
  simp [countName]

theorem capFrom_sublist : ∀ (l prior : List TRec), List.Sublist (capFrom prior l) l
  | [], _ => by simp [capFrom]
  | x :: xs, prior => by
    rw [capFrom]
    by_cases hlt : countName x.1.name prior < 3
    · rw [if_pos hlt]
      exact (capFrom_sublist xs (prior ++ [x])).cons₂ x
    · rw [if_neg hlt]
      exact (capFrom_sublist xs (prior ++ [x])).cons x

theorem capAppearances_sublist (l : List TRec) : List.Sublist (capAppearances l) l :=
  capFrom_sublist l []

theorem capFrom_all_kept :
    ∀ (l prior : List TRec),
      (∀ nm, countName nm prior + countName nm l ≤ 3) → capFrom prior l = l
  | [], _, _ => by simp [capFrom]
  | x :: xs, prior, h => by
    rw [capFrom]
    have hx := h x.1.name
    rw [countName_cons] at hx
    simp at hx
    have hlt : countName x.1.name prior < 3 := by omega
    rw [if_pos hlt, capFrom_all_kept xs (prior ++ [x])]
    intro nm
    rw [countName_append, countName_cons]
    have := h nm
    rw [countName_cons] at this
    simp [countName] at *
    omega

theorem capAppearances_all_kept (l : List TRec)
    (h : ∀ nm, countName nm l ≤ 3) : capAppearances l = l := by
  rw [capAppearances, capFrom_all_kept]
  intro nm
  simpa [countName] using h nm

theorem countName_capAppearances_le (nm : String) (l : List TRec) :
    countName nm (capAppearances l) ≤ 3 := by
  rw [countName, capAppearances_filter]
  exact le_trans (List.length_take_le 3 _) (le_refl 3)

theorem dateLe_trans : ∀ (a b c : Option Int), dateLe a b → dateLe b c → dateLe a c := by
  intro a b c hab hbc
  cases a <;> cases b <;> cases c <;> simp [dateLe] at * <;> omega

theorem dateLe_total : ∀ (a b : Option Int), dateLe a b || dateLe b a := by
  intro a b
  cases a <;> cases b <;> simp [dateLe] <;> omega

theorem tdateLe_trans : ∀ (a b c : TRec), tdateLe a b → tdateLe b c → tdateLe a c :=
  fun a b c => dateLe_trans a.1.date b.1.date c.1.date

theorem tdateLe_total : ∀ (a b : TRec), tdateLe a b || tdateLe b a :=
  fun a b => dateLe_total a.1.date b.1.date

theorem sortByDate_perm (l : List TRec) : List.Perm (sortByDate l) l :=
  List.perm_insertionSort tdateLeP l

theorem sortByDate_sorted (l : List TRec) : (sortByDate l).Pairwise tdateLeP :=
  List.sorted_insertionSort tdateLeP l

theorem sortByDate_of_sorted {l : List TRec} (h : l.Pairwise tdateLeP) :
    sortByDate l = l :=
  List.Sorted.insertionSort_eq h

theorem keysOf_nodup (l : List TRec) : (keysOf l).Nodup := by
  rw [keysOf]
  exact ((List.perm_insertionSort keyLeP _).nodup_iff).mpr (List.nodup_dedup _)

theorem mem_keysOf {l : List TRec} {k : Key} :
    k ∈ keysOf l ↔ ∃ t ∈ l, validKey t = some k := by
  rw [keysOf]
  rw [(List.perm_insertionSort keyLeP _).mem_iff, List.mem_dedup,
      List.mem_filterMap]

theorem sumDots_congr_filter (k : Key) (l : List TRec) (p : TRec → Bool)
    (h : ∀ t ∈ l, validKey t = some k → p t = true) :
    sumDots k (l.filter p) = sumDots k l := by
  rw [sumDots, sumDots, List.filter_filter]
  congr 2
  apply List.filter_congr
  intro t ht
  by_cases hk : validKey t = some k
  · simp [hk, h t ht hk]
  · simp [hk]

/-- Sum of the scores of a record list. -/
def sumScores (l : List TRec) : Int := (l.map (fun t => t.1.score)).sum

/-- Does the record's group key exist and satisfy P. -/
def keyP (P : Key → Bool) (t : TRec) : Bool :=
  match validKey t with
  | some k => P k
  | none => false

theorem sumScores_filter_split (q : TRec → Bool) (l : List TRec) :
    sumScores l = sumScores (l.filter q) + sumScores (l.filter (fun t => !q t)) := by
  induction l with
  | nil => simp [sumScores]
  | cons x xs ih =>
    by_cases hq : q x = true <;>
      simp [sumScores, List.filter_cons, hq] at * <;> omega

theorem sumDots_eq_sumScores (k : Key) (l : List TRec) :
    sumDots k l = sumScores (l.filter (fun t => validKey t = some k)) := rfl

theorem sum_sumDots_filter (P : Key → Bool) :
    ∀ (keys : List Key) (l : List TRec), keys.Nodup →
      (∀ t ∈ l, ∀ k, validKey t = some k → k ∈ keys) →
      ((keys.filter P).map (fun k => sumDots k l)).sum
        = sumScores (l.filter (keyP P))
  | [], l, _, hcover => by
    have : l.filter (keyP P) = [] := by
      apply List.filter_eq_nil.mpr
      intro t ht
      intro habs
      rw [keyP] at habs
      cases hv : validKey t with
      | none => rw [hv] at habs; simp at habs
      | some k => exact absurd (hcover t ht k hv) (List.not_mem_nil k)
    simp [this, sumScores]
  | k :: ks, l, hnd, hcover => by
    have hknotin : k ∉ ks := (List.nodup_cons.mp hnd).1
    have hndks : ks.Nodup := (List.nodup_cons.mp hnd).2
    set l' := l.filter (fun t => !(decide (validKey t = some k))) with hl'
    have hcover' : ∀ t ∈ l', ∀ k₂, validKey t = some k₂ → k₂ ∈ ks := by
      intro t ht k₂ hv
      have htl : t ∈ l := List.mem_of_mem_filter ht
      have hne : ¬(validKey t = some k) := by
        have := List.of_mem_filter ht
        simpa using this
      have := hcover t htl k₂ hv
      rcases List.mem_cons.mp this with h | h
      · exact absurd (hv.trans (congrArg some h)) hne
      · exact h
    have hIH := sum_sumDots_filter P ks l' hndks hcover'
    -- replace sums over l' by sums over l for keys in ks
    have hmap : (ks.filter P).map (fun k₂ => sumDots k₂ l')
        = (ks.filter P).map (fun k₂ => sumDots k₂ l) := by
      apply List.map_congr_left
      intro k₂ hk₂
      have hk₂ks : k₂ ∈ ks := List.mem_of_mem_filter hk₂
      have hk₂ne : k₂ ≠ k := fun h => hknotin (h ▸ hk₂ks)
      rw [hl']
      apply sumDots_congr_filter
      intro t _ hv
      simp only [Bool.not_eq_true', decide_eq_false_iff_not]
      intro habs
      rw [habs] at hv
      exact hk₂ne (Option.some_injective _ hv.symm)
    -- split the right-hand side on membership in the k-fiber
    have hsplit := sumScores_filter_split
      (fun t => decide (validKey t = some k)) (l.filter (keyP P))
    have hcomm : (l.filter (keyP P)).filter (fun t => !(decide (validKey t = some k)))
        = l'.filter (keyP P) := by
      rw [hl', List.filter_filter, List.filter_filter]
      apply List.filter_congr
      intro t _
      rw [Bool.and_comm]
    by_cases hPk : P k = true
    · have hfib : (l.filter (keyP P)).filter (fun t => decide (validKey t = some k))
          = l.filter (fun t => decide (validKey t = some k)) := by
        rw [List.filter_filter]
        apply List.filter_congr
        intro t _
        by_cases hv : validKey t = some k
        · simp [hv, keyP, hPk]
        · simp [hv]
      rw [List.filter_cons_of_pos (by simp [hPk]), List.map_cons, List.sum_cons,
          ← hmap, hIH, hsplit, hfib, hcomm, sumDots_eq_sumScores]
    · have hfib : (l.filter (keyP P)).filter (fun t => decide (validKey t = some k))
          = [] := by
        apply List.filter_eq_nil.mpr
        intro t ht habs
        have hkey : keyP P t = true := List.of_mem_filter ht
        have hv : validKey t = some k := of_decide_eq_true habs
        rw [keyP, hv] at hkey
        exact absurd hkey (by simp [hPk])
      rw [List.filter_cons_of_neg (by simp [hPk]), ← hmap, hIH, hsplit, hfib, hcomm]
      simp [sumScores]

theorem rankStage_name_dots (rows : List AggRow) (nm : String) :
    ((rankStage rows).filter (fun row => row.name = nm)).map (fun row => row.dots)
      = (rows.filter (fun row => row.name = nm)).map (fun row => row.dots) := by
  rw [rankStage, List.filter_map, List.map_map]
  rfl

theorem sortAgg_filter_sum (rows : List AggRow) (nm : String) :
    (((sortAgg rows).filter (fun row => row.name = nm)).map (fun row => row.dots)).sum
      = ((rows.filter (fun row => row.name = nm)).map (fun row => row.dots)).sum := by
  exact (((List.perm_insertionSort dotsGeP rows).filter _).map _).sum_eq

theorem totalScoreOf_eq_sum (l : List Rec) (nm : String) :
    totalScoreOf (process_novice l) nm
      = sumScores ((cappedOf l).filter (keyP (fun k => decide (k.1 = nm)))) := by
  rw [totalScoreOf, process_novice, rankStage_name_dots, sortAgg_filter_sum,
      aggRows, List.filter_map, List.map_map]
  have hcomp :
      ((keysOf (cappedOf l)).filter
        ((fun row : AggRow => decide (row.name = nm)) ∘
          (fun k : Key => (⟨k.1, k.2.1, k.2.2, sumDots k (cappedOf l)⟩ : AggRow)))).map
        ((fun row : AggRow => row.dots) ∘
          (fun k : Key => (⟨k.1, k.2.1, k.2.2, sumDots k (cappedOf l)⟩ : AggRow)))
      = ((keysOf (cappedOf l)).filter (fun k : Key => decide (k.1 = nm))).map
          (fun k => sumDots k (cappedOf l)) := by
    rfl
  rw [hcomp]
  apply sum_sumDots_filter
  · exact keysOf_nodup _
  · intro t ht k hv
    exact mem_keysOf.mpr ⟨t, ht, hv⟩

/-- Number of records in a raw input carrying the given Name. -/
def countRecName (nm : String) (l : List Rec) : Nat :=
  (l.filter (fun r => r.name = nm)).length

theorem mem_cappedOf_mem_classify {l : List Rec} {t : TRec}
    (h : t ∈ cappedOf l) : t ∈ classify l := by
  have h₁ : t ∈ sortByDate (classify l) :=
    (capAppearances_sublist _).subset h
  exact (sortByDate_perm (classify l)).subset h₁

theorem mem_classify {l : List Rec} {t : TRec} (h : t ∈ classify l) :
    t.1 ∈ l ∧ t.2 = assign_division t.1 := by
  rw [classify, List.mem_map] at h
  obtain ⟨r, hr, hrt⟩ := h
  constructor
  · rw [← hrt]; exact hr
  · rw [← hrt]

theorem validKey_name (t : TRec) (k : Key) (hv : validKey t = some k) :
    k.1 = t.1.name := by
  rw [validKey] at hv
  cases hsx : t.1.sex <;> cases hdv : t.2 <;> rw [hsx, hdv] at hv <;> simp at hv
  rw [← hv]

theorem capped_filter_keyP (l : List Rec) (nm : String)
    (h : ∀ r ∈ l, r.name = nm → r.age.isSome ∧ r.sex.isSome) :
    (cappedOf l).filter (keyP (fun k => decide (k.1 = nm)))
      = (cappedOf l).filter (fun t => t.1.name = nm) := by
  apply List.filter_congr
  intro t ht
  by_cases hnm : t.1.name = nm
  · obtain ⟨htl, htd⟩ := mem_classify (mem_cappedOf_mem_classify ht)
    obtain ⟨hage, hsex⟩ := h t.1 htl hnm
    obtain ⟨a, ha⟩ := Option.isSome_iff_exists.mp hage
    obtain ⟨s, hs⟩ := Option.isSome_iff_exists.mp hsex
    have hdiv : t.2 = some (ageBand a ++ " " ++ sexBucket (some s)) := by
      rw [htd, assign_division, ha, hs]
    have hv : validKey t
        = some (t.1.name, s, ageBand a ++ " " ++ sexBucket (some s)) := by
      simp [validKey, hs, hdiv]
    simp [keyP, hv, hnm]
  · have hrhs : decide (t.1.name = nm) = false := decide_eq_false hnm
    rw [hrhs, keyP]
    cases hv : validKey t with
    | none => rfl
    | some k =>
      have hk : k.1 = t.1.name := validKey_name t k hv
      simp [hk, hnm]

theorem cappedOf_name_take (l : List Rec) (nm : String) :
    (cappedOf l).filter (fun t => t.1.name = nm)
      = ((sortByDate (classify l)).filter (fun t => t.1.name = nm)).take 3 := by
  rw [cappedOf, limiter, capAppearances_filter]

theorem classify_filter_name (l : List Rec) (nm : String) :
    (classify l).filter (fun t => t.1.name = nm)
      = (l.filter (fun r => r.name = nm)).map (fun r => (r, assign_division r)) := by
  rw [classify, List.filter_map]
  rfl

theorem countName_classify (l : List Rec) (nm : String) :
    countName nm (classify l) = countRecName nm l := by
  rw [countName, countRecName, classify_filter_name, List.length_map]

theorem sumScores_classify_filter (l : List Rec) (nm : String) :
    sumScores ((classify l).filter (fun t => t.1.name = nm))
      = ((l.filter (fun r => r.name = nm)).map (fun r => r.score)).sum := by
  rw [classify_filter_name, sumScores, List.map_map]
  rfl

theorem sorted_filter_name (l : List Rec) (nm : String) :
    ((sortByDate (classify l)).filter (fun t => t.1.name = nm)).Pairwise
      tdateLeP :=
  (sortByDate_sorted (classify l)).sublist (List.filter_sublist _)

theorem filter_sorted_perm_classify (l : List Rec) (nm : String) :
    List.Perm ((sortByDate (classify l)).filter (fun t => t.1.name = nm))
      ((classify l).filter (fun t => t.1.name = nm)) :=
  (sortByDate_perm (classify l)).filter _

theorem total_eq_take3 (l : List Rec) (nm : String)
    (h : ∀ r ∈ l, r.name = nm → r.age.isSome ∧ r.sex.isSome) :
    totalScoreOf (process_novice l) nm
      = sumScores (((sortByDate (classify l)).filter
          (fun t => t.1.name = nm)).take 3) := by
  rw [totalScoreOf_eq_sum, capped_filter_keyP l nm h, cappedOf_name_take]

theorem total_all_of_le3 (l : List Rec) (nm : String)
    (h : ∀ r ∈ l, r.name = nm → r.age.isSome ∧ r.sex.isSome)
    (hle : countRecName nm l ≤ 3) :
    totalScoreOf (process_novice l) nm
      = ((l.filter (fun r => r.name = nm)).map (fun r => r.score)).sum := by
  rw [total_eq_take3 l nm h]
  have hlen : ((sortByDate (classify l)).filter
      (fun t => t.1.name = nm)).length ≤ 3 := by
    rw [(filter_sorted_perm_classify l nm).length_eq, ← countName,
        countName_classify]
    exact hle
  rw [List.take_of_length_le hlen, ← sumScores_classify_filter]
  rw [sumScores, sumScores]
  exact (((filter_sorted_perm_classify l nm)).map _).sum_eq

theorem take_drop_dateLe (l : List Rec) (nm : String) :
    ∀ x ∈ ((sortByDate (classify l)).filter (fun t => t.1.name = nm)).take 3,
      ∀ y ∈ ((sortByDate (classify l)).filter (fun t => t.1.name = nm)).drop 3,
        tdateLeP x y := by
  have hp : (((sortByDate (classify l)).filter (fun t => t.1.name = nm)).take 3
      ++ ((sortByDate (classify l)).filter (fun t => t.1.name = nm)).drop 3).Pairwise
      tdateLeP := by
    rw [List.take_append_drop]
    exact sorted_filter_name l nm
  exact (List.pairwise_append.mp hp).2.2

/-- C1 (amended).  When every record of a participant carries a present
age and sex, the pipeline total for that participant is the sum of the
scores of the first three records of that participant in date-sorted
order (chronologically earliest, missing dates last); each retained
record's date is no later than each dropped one's; and when the
participant has three or fewer records, every one of their scores is
included in the total. -/
theorem c1_earliest_three_total (l : List Rec) (nm : String)
    (h : ∀ r ∈ l, r.name = nm → r.age.isSome ∧ r.sex.isSome) :
    totalScoreOf (process_novice l) nm
        = sumScores (((sortByDate (classify l)).filter
            (fun t => t.1.name = nm)).take 3)
      ∧ (∀ x ∈ ((sortByDate (classify l)).filter (fun t => t.1.name = nm)).take 3,
          ∀ y ∈ ((sortByDate (classify l)).filter (fun t => t.1.name = nm)).drop 3,
            tdateLeP x y)
      ∧ (countRecName nm l ≤ 3 →
          totalScoreOf (process_novice l) nm
            = ((l.filter (fun r => r.name = nm)).map (fun r => r.score)).sum) :=
  ⟨total_eq_take3 l nm h, take_drop_dateLe l nm, total_all_of_le3 l nm h⟩

def c1wit : List Rec :=
  [⟨"A", some "M", some 22, 300, some 91⟩,
   ⟨"A", some "M", some 22, 100, some 1⟩,
   ⟨"A", some "M", some 22, 200, some 32⟩,
   ⟨"A", some "M", some 22, 150, some 60⟩]

/-- Witness for c1_earliest_three_total at the spec's own scenario:
participant "A" with scores 100, 200, 150, 300 in date order totals
100 + 200 + 150 = 450. -/
theorem c1_earliest_three_total_witness :
    totalScoreOf (process_novice c1wit) "A" = 450 :=
  ((c1_earliest_three_total c1wit "A" (by decide)).1).trans (by decide)

def c1ctr : List Rec :=
  [⟨"B", some "M", none, 50, some 1⟩,
   ⟨"B", some "M", some 25, 100, some 2⟩,
   ⟨"B", some "M", some 25, 100, some 3⟩,
   ⟨"B", some "M", some 25, 100, some 4⟩]

/-- Counterexample to C1 as stated: participant "B" has exactly 3
qualifying (present-age) records, each scoring 100, yet the pipeline
total is 200, not 300 — the earlier missing-age record consumes one of
the three appearance slots. -/
theorem c1_counterexample :
    countRecName "B" (c1ctr.filter (fun r => r.age.isSome)) = 3
      ∧ ((c1ctr.filter (fun r => r.age.isSome && r.name = "B")).map
          (fun r => r.score)).sum = 300
      ∧ totalScoreOf (process_novice c1ctr) "B" = 200 := by
  decide

theorem filter_length_mono (l : List AggRow) (p q : AggRow → Bool)
    (h : ∀ x ∈ l, p x = true → q x = true) :
    (l.filter p).length ≤ (l.filter q).length := by
  induction l with
  | nil => simp
  | cons x xs ih =>
    have hxs : ∀ x ∈ xs, p x = true → q x = true :=
      fun x hx => h x (List.mem_cons_of_mem _ hx)
    by_cases hp : p x = true
    · rw [List.filter_cons_of_pos hp, List.filter_cons_of_pos (h x (List.mem_cons_self x xs) hp)]
      simpa using ih hxs
    · rw [List.filter_cons_of_neg (by simpa using hp)]
      by_cases hq : q x = true
      · rw [List.filter_cons_of_pos hq]
        exact le_trans (ih hxs) (by simp)
      · rw [List.filter_cons_of_neg (by simpa using hq)]
        exact ih hxs

theorem filter_length_strict (l : List AggRow) (p q : AggRow → Bool)
    (a : AggRow) (ha : a ∈ l)
    (h : ∀ x ∈ l, p x = true → q x = true)
    (hqa : q a = true) (hpa : p a = false) :
    (l.filter p).length < (l.filter q).length := by
  induction l with
  | nil => exact absurd ha (List.not_mem_nil a)
  | cons x xs ih =>
    have hxs : ∀ x ∈ xs, p x = true → q x = true :=
      fun x hx => h x (List.mem_cons_of_mem _ hx)
    rcases List.mem_cons.mp ha with hax | hax
    · rw [hax] at hqa hpa
      rw [List.filter_cons_of_pos hqa, List.filter_cons_of_neg (by simp [hpa])]
      exact Nat.lt_succ_of_le (filter_length_mono xs p q hxs)
    · have hstrict := ih hax hxs
      by_cases hp : p x = true
      · rw [List.filter_cons_of_pos hp, List.filter_cons_of_pos (h x (List.mem_cons_self x xs) hp)]
        simpa using hstrict
      · rw [List.filter_cons_of_neg (by simpa using hp)]
        by_cases hq : q x = true
        · rw [List.filter_cons_of_pos hq]
          exact Nat.lt_succ_of_le (Nat.le_of_lt hstrict)
        · rw [List.filter_cons_of_neg (by simpa using hq)]
          exact hstrict

theorem rankOf_lt_of_dots_gt {rows : List AggRow} {a b : AggRow}
    (ha : a ∈ rows) (hdiv : b.division = a.division) (hdots : b.dots < a.dots) :
    rankOf rows a < rankOf rows b := by
  rw [rankOf, rankOf]
  have := filter_length_strict rows
    (fun y => y.division = a.division && decide (a.dots < y.dots))
    (fun y => y.division = b.division && decide (b.dots < y.dots))
    a ha
    (by
      intro z _ hz
      simp only [Bool.and_eq_true, decide_eq_true_eq] at hz ⊢
      refine ⟨?_, by omega⟩
      rw [hz.1, hdiv])
    (by simp [hdiv, hdots])
    (by simp)
  omega

theorem rankOf_le_of_dots_le {rows : List AggRow} {a b : AggRow}
    (hdiv : b.division = a.division) (hdots : b.dots ≤ a.dots) :
    rankOf rows a ≤ rankOf rows b := by
  rw [rankOf, rankOf]
  have := filter_length_mono rows
    (fun y => y.division = a.division && decide (a.dots < y.dots))
    (fun y => y.division = b.division && decide (b.dots < y.dots))
    (by
      intro z _ hz
      simp only [Bool.and_eq_true, decide_eq_true_eq] at hz ⊢
      constructor
      · rw [hz.1, hdiv]
      · omega)
  omega

theorem rankOf_eq_of_dots_eq {rows : List AggRow} {a b : AggRow}
    (hdiv : b.division = a.division) (hdots : a.dots = b.dots) :
    rankOf rows a = rankOf rows b := by
  rw [rankOf, rankOf]
  congr 2
  apply List.filter_congr
  intro z _
  rw [hdiv, hdots]

/-- C2: within a division, strictly greater total score means strictly
smaller rank; equal totals mean equal rank; every rank is at least 1;
and each rank exceeds by one the number of rows of the division ranked
strictly better (minimum-tie convention, no gaps beyond ties). -/
theorem c2_rank_properties (l : List Rec) (x y : RankedRow)
    (hx : x ∈ process_novice l) (hy : y ∈ process_novice l)
    (hdiv : x.division = y.division) :
    (y.dots < x.dots → x.rank < y.rank)
    ∧ (x.dots = y.dots → x.rank = y.rank)
    ∧ 1 ≤ x.rank
    ∧ x.rank = ((process_novice l).filter
        (fun z => z.division = x.division && decide (z.rank < x.rank))).length + 1 := by
  rw [process_novice] at hx hy ⊢
  set rows := sortAgg (aggRows (cappedOf l)) with hrows
  obtain ⟨a, ha, hax⟩ := List.mem_map.mp hx
  obtain ⟨b, hb, hby⟩ := List.mem_map.mp hy
  subst hax
  subst hby
  simp only at hdiv ⊢
  refine ⟨?_, ?_, ?_, ?_⟩
  · intro hdots
    exact rankOf_lt_of_dots_gt ha hdiv.symm hdots
  · intro hdots
    exact rankOf_eq_of_dots_eq hdiv.symm hdots
  · rw [rankOf]
    omega
  · rw [rankStage, List.filter_map, List.length_map]
    have hcongr : rows.filter
        ((fun z : RankedRow => z.division = a.division
            && decide (z.rank < rankOf rows a)) ∘
          (fun r : AggRow => (⟨r.name, r.sex, r.division, r.dots,
            rankOf rows r⟩ : RankedRow)))
        = rows.filter
            (fun r : AggRow => r.division = a.division
              && decide (a.dots < r.dots)) := by
      apply List.filter_congr
      intro r hr
      simp only [Function.comp]
      by_cases hd : r.division = a.division
      · rw [decide_eq_true hd]
        simp only [Bool.true_and]
        have hiff : rankOf rows r < rankOf rows a ↔ a.dots < r.dots := by
          constructor
          · intro hlt
            by_contra hnot
            have hle : r.dots ≤ a.dots := by omega
            exact absurd hlt (Nat.not_lt.mpr (rankOf_le_of_dots_le hd hle))
          · intro hgt
            exact rankOf_lt_of_dots_gt hr hd.symm hgt
        rw [decide_eq_decide.mpr hiff]
      · simp [hd]
    rw [hcongr, rankOf]
theorem upperChar_ne (c : Char) (h1 : ¬c = 'a') (h2 : ¬c = 'b') (h3 : ¬c = 'c')
    (h4 : ¬c = 'd') (h5 : ¬c = 'e') (h6 : ¬c = 'f') (h7 : ¬c = 'g')
    (h8 : ¬c = 'h') (h9 : ¬c = 'i') (h10 : ¬c = 'j') (h11 : ¬c = 'k')
    (h12 : ¬c = 'l') (h13 : ¬c = 'm') (h14 : ¬c = 'n') (h15 : ¬c = 'o')
    (h16 : ¬c = 'p') (h17 : ¬c = 'q') (h18 : ¬c = 'r') (h19 : ¬c = 's')
    (h20 : ¬c = 't') (h21 : ¬c = 'u') (h22 : ¬c = 'v') (h23 : ¬c = 'w')
    (h24 : ¬c = 'x') (h25 : ¬c = 'y') (h26 : ¬c = 'z') :
    upperChar c = c := by
  rw [upperChar, if_neg h1, if_neg h2, if_neg h3, if_neg h4, if_neg h5,
      if_neg h6, if_neg h7, if_neg h8, if_neg h9, if_neg h10, if_neg h11,
      if_neg h12, if_neg h13, if_neg h14, if_neg h15, if_neg h16, if_neg h17,
      if_neg h18, if_neg h19, if_neg h20, if_neg h21, if_neg h22, if_neg h23,
      if_neg h24, if_neg h25, if_neg h26]

theorem upperChar_eq_M (c : Char) : upperChar c = 'M' ↔ c = 'm' ∨ c = 'M' := by
  by_cases h1 : c = 'a'
  · subst h1; decide
  by_cases h2 : c = 'b'
  · subst h2; decide
  by_cases h3 : c = 'c'
  · subst h3; decide
  by_cases h4 : c = 'd'
  · subst h4; decide
  by_cases h5 : c = 'e'
  · subst h5; decide
  by_cases h6 : c = 'f'
  · subst h6; decide
  by_cases h7 : c = 'g'
  · subst h7; decide
  by_cases h8 : c = 'h'
  · subst h8; decide
  by_cases h9 : c = 'i'
  · subst h9; decide
  by_cases h10 : c = 'j'
  · subst h10; decide
  by_cases h11 : c = 'k'
  · subst h11; decide
  by_cases h12 : c = 'l'
  · subst h12; decide
  by_cases h13 : c = 'm'
  · subst h13; decide
  by_cases h14 : c = 'n'
  · subst h14; decide
  by_cases h15 : c = 'o'
  · subst h15; decide
  by_cases h16 : c = 'p'
  · subst h16; decide
  by_cases h17 : c = 'q'
  · subst h17; decide
  by_cases h18 : c = 'r'
  · subst h18; decide
  by_cases h19 : c = 's'
  · subst h19; decide
  by_cases h20 : c = 't'
  · subst h20; decide
  by_cases h21 : c = 'u'
  · subst h21; decide
  by_cases h22 : c = 'v'
  · subst h22; decide
  by_cases h23 : c = 'w'
  · subst h23; decide
  by_cases h24 : c = 'x'
  · subst h24; decide
  by_cases h25 : c = 'y'
  · subst h25; decide
  by_cases h26 : c = 'z'
  · subst h26; decide
  rw [upperChar_ne c h1 h2 h3 h4 h5 h6 h7 h8 h9 h10 h11 h12 h13 h14 h15 h16
      h17 h18 h19 h20 h21 h22 h23 h24 h25 h26]
  constructor
  · intro h
    exact Or.inr h
  · intro h
    rcases h with h | h
    · exact absurd h h13
    · exact h

/-- Spec-side sex bucket test, following the amended claim's words: the
sex string, after stripping leading/trailing whitespace, starts with
the letter m upper or lower case; absent sex is not Men. -/
def specSexIsMen (sex : Option String) : Bool :=
  match sex with
  | none => false
  | some s =>
    match pyStrip s.data with
    | [] => false
    | c :: _ => c = 'm' || c = 'M'

/-- Spec-side age band, following the claim's words: age < 24 Junior,
24 <= age < 40 Open, age >= 40 Masters. -/
def specAgeBand (a : Int) : String :=
  if 24 ≤ a ∧ a < 40 then "Open"
  else if 40 ≤ a then "Masters"
  else "Junior"

/-- Spec-side division label per the amended claim. -/
def specDivision (r : Rec) : Option String :=
  match r.age with
  | none => none
  | some a =>
    some (specAgeBand a ++ " "
      ++ (if specSexIsMen r.sex then "Men" else "Women"))

theorem ageBand_eq_spec (a : Int) : ageBand a = specAgeBand a := by
  rw [ageBand, specAgeBand]
  split_ifs <;> first | rfl | (exfalso; omega)

theorem sexBucket_eq_spec (sex : Option String) :
    sexBucket sex = (if specSexIsMen sex then "Men" else "Women") := by
  have hcond : pyStartsWithM ((pyStrip (sexStr sex).data).map upperChar)
      = specSexIsMen sex := by
    cases sex with
    | none => decide
    | some s =>
      rw [sexStr, specSexIsMen]
      cases hs : pyStrip s.data with
      | nil => rfl
      | cons c cs =>
        rw [List.map_cons, pyStartsWithM]
        have hiff := upperChar_eq_M c
        by_cases hm : upperChar c = 'M'
        · rw [decide_eq_true hm]
          rcases hiff.mp hm with h | h <;> simp [h]
        · rw [decide_eq_false hm]
          have h2 : ¬(c = 'm' ∨ c = 'M') := fun h => hm (hiff.mpr h)
          push_neg at h2
          simp [h2.1, h2.2]
  rw [sexBucket, hcond]

/-- C3 (amended).  The division of every record agrees with the spec's
formula once the sex test is read as applying after stripping
leading/trailing whitespace: no division without an age; otherwise the
label is the age band (under 24 Junior, 24 to 39 Open, 40 up Masters)
followed by Men exactly when the stripped sex string starts with m or M
case-insensitively, else Women. -/
theorem c3_division_formula (r : Rec) :
    assign_division r = specDivision r := by
  cases hage : r.age with
  | none => rw [assign_division, specDivision, hage]
  | some a =>
    rw [assign_division, specDivision, hage]
    simp only [ageBand_eq_spec, sexBucket_eq_spec]

/-- Counterexample to C3 as stated: the record with sex " m" (leading
space) is bucketed Men by the code, although the raw sex string starts
with a space rather than with m or M. -/
theorem c3_counterexample :
    assign_division ⟨"X", some " m", some 25, 0, none⟩ = some "Open Men"
      ∧ (" m").data.head? = some ' '
      ∧ ¬(' ' = 'm' ∨ ' ' = 'M') := by
  decide

/-- The drop-unclassifiable stage named by the spec: remove records
whose Division is None. -/
def dropUnclassifiable (l : List TRec) : List TRec :=
  l.filter (fun t => t.2.isSome)

theorem filterMap_validKey_dropUnclassifiable (l : List TRec) :
    (dropUnclassifiable l).filterMap validKey = l.filterMap validKey := by
  rw [dropUnclassifiable]
  induction l with
  | nil => rfl
  | cons t ts ih =>
    cases hd : t.2 with
    | none =>
      rw [List.filter_cons_of_neg (by simp [hd]), List.filterMap_cons, ih]
      have hv : validKey t = none := by
        rw [validKey, hd]
        cases t.1.sex <;> rfl
      rw [hv]
    | some d =>
      rw [List.filter_cons_of_pos (by simp [hd]), List.filterMap_cons,
          List.filterMap_cons, ih]

theorem validKey_some_div {t : TRec} {k : Key} (hv : validKey t = some k) :
    t.2.isSome := by
  rw [validKey] at hv
  cases hsx : t.1.sex <;> cases hdv : t.2 <;> rw [hsx, hdv] at hv <;>
    simp at hv
  simp [hdv]

theorem aggRows_dropUnclassifiable (l : List TRec) :
    aggRows (dropUnclassifiable l) = aggRows l := by
  rw [aggRows, aggRows]
  have hkeys : keysOf (dropUnclassifiable l) = keysOf l := by
    rw [keysOf, keysOf, filterMap_validKey_dropUnclassifiable]
  rw [hkeys]
  apply List.map_congr_left
  intro k _
  have hsum : sumDots k (dropUnclassifiable l) = sumDots k l := by
    rw [dropUnclassifiable]
    apply sumDots_congr_filter
    intro t _ hv
    exact validKey_some_div hv
  rw [hsum]

/-- C5 (amended).  The stages run classify, sort by date, cap
appearances, aggregate, rank; unclassifiable records are dropped only at
the aggregation grouping (filtering them out right before aggregation
gives the same result), so they do occupy appearance slots. -/
theorem c5_stage_order (l : List Rec) :
    process_novice l
      = rankStage (sortAgg (aggRows (dropUnclassifiable
          (capAppearances (sortByDate (classify l)))))) := by
  rw [process_novice, aggRows_dropUnclassifiable]
  rfl

def c5ctr : List Rec :=
  [⟨"D", some "F", none, 10, some 1⟩,
   ⟨"D", some "F", some 30, 20, some 2⟩,
   ⟨"D", some "F", some 30, 30, some 3⟩,
   ⟨"D", some "F", some 30, 40, some 4⟩]

/-- Counterexample to C5 as stated: the earliest record of "D" has no
age, yet it survives the appearance cap (occupying a slot), the
classifiable fourth record is pushed out, and the total is 50 rather
than 90. -/
theorem c5_counterexample :
    (cappedOf c5ctr).any (fun t => t.1.age = none) = true
      ∧ (cappedOf c5ctr).any
          (fun t => t.1 = ⟨"D", some "F", some 30, 40, some 4⟩) = false
      ∧ totalScoreOf (process_novice c5ctr) "D" = 50 := by
  decide

/-- C4 (amended).  When every input record lacks an age (in particular
on empty input), process_novice returns the empty table; the pipeline
has no distinct EmptyInput outcome. -/
theorem c4_empty_table (l : List Rec) (h : ∀ r ∈ l, r.age = none) :
    process_novice l = [] := by
  have hfm : (cappedOf l).filterMap validKey = [] := by
    rw [List.filterMap_eq_nil]
    intro t ht
    obtain ⟨htl, htd⟩ := mem_classify (mem_cappedOf_mem_classify ht)
    have ht2 : t.2 = none := by
      rw [htd, assign_division, h t.1 htl]
    rw [validKey, ht2]
    cases t.1.sex <;> rfl
  rw [process_novice, aggRows, keysOf, hfm]
  rfl

/-- Counterexample to C4 as stated: the empty input and an input whose
only record is unclassifiable both yield the same plain empty table;
no distinct error outcome exists. -/
theorem c4_counterexample :
    process_novice [] = []
      ∧ process_novice [⟨"Z", some "F", none, 10, some 1⟩] = [] := by
  decide

/-- Witness for c4_empty_table on a one-record ageless input. -/
theorem c4_empty_table_witness :
    process_novice [⟨"W", some "F", none, 5, some 3⟩] = [] :=
  c4_empty_table [⟨"W", some "F", none, 5, some 3⟩] (by decide)

theorem mem_process_dots {l : List Rec} {row : RankedRow}
    (hrow : row ∈ process_novice l) :
    row.dots = sumDots (row.name, row.sex, row.division) (cappedOf l) := by
  rw [process_novice] at hrow
  obtain ⟨a, ha, hax⟩ := List.mem_map.mp hrow
  have ha2 : a ∈ aggRows (cappedOf l) :=
    (List.perm_insertionSort dotsGeP _).subset ha
  obtain ⟨k, hk, hka⟩ := List.mem_map.mp ha2
  subst hax
  subst hka
  rfl

theorem capped_key_age {l : List Rec} {t : TRec} (ht : t ∈ cappedOf l)
    {k : Key} (hv : validKey t = some k) : t.1.age.isSome := by
  obtain ⟨htl, htd⟩ := mem_classify (mem_cappedOf_mem_classify ht)
  have hdiv : t.2.isSome := validKey_some_div hv
  rw [htd, assign_division] at hdiv
  cases hage : t.1.age with
  | none => rw [hage] at hdiv; simp at hdiv
  | some a => rfl

/-- C6: a record with absent age receives no division, and every output
total is the sum over age-present records of its group only, so a
missing-age record contributes to no total and to no output row. -/
theorem c6_missing_age_excluded :
    (∀ r : Rec, r.age = none → assign_division r = none)
    ∧ ∀ (l : List Rec), ∀ row ∈ process_novice l,
        row.dots = sumScores ((cappedOf l).filter
          (fun t => t.1.age.isSome && decide (validKey t
            = some (row.name, row.sex, row.division)))) := by
  constructor
  · intro r h
    rw [assign_division, h]
  · intro l row hrow
    rw [mem_process_dots hrow, sumDots_eq_sumScores]
    congr 1
    apply List.filter_congr
    intro t ht
    by_cases hv : validKey t = some (row.name, row.sex, row.division)
    · rw [decide_eq_true hv, capped_key_age ht hv, Bool.true_and]
    · rw [decide_eq_false hv, Bool.and_false]

def c6wit : List Rec :=
  [⟨"E", some "M", some 45, 77, some 9⟩, ⟨"E", some "M", none, 5, some 1⟩]

/-- Witness for c6_missing_age_excluded: in a two-record input whose
earlier record lacks an age, the single output row totals only the
age-present record's 77. -/
theorem c6_missing_age_excluded_witness :
    (⟨"E", "M", "Masters Men", 77, 1⟩ : RankedRow) ∈ process_novice c6wit
    ∧ (⟨"E", "M", "Masters Men", 77, 1⟩ : RankedRow).dots
        = sumScores ((cappedOf c6wit).filter
            (fun t => t.1.age.isSome && decide (validKey t
              = some ("E", "M", "Masters Men")))) :=
  ⟨by decide, c6_missing_age_excluded.2 c6wit ⟨"E", "M", "Masters Men", 77, 1⟩
    (by decide)⟩

theorem dateLe_none {d : Option Int} (h : dateLe none d = true) : d = none := by
  cases d with
  | none => rfl
  | some b => rw [dateLe] at h; exact absurd h (by simp)

/-- C7: within each participant's date-sorted records, missing dates come
last (once a record has no date, all later ones have none); hence if the
appearance cap retains any missing-date record of a participant, it has
dropped none of that participant's dated records — dropped records are
missing-date first. -/
theorem c7_missing_dates_dropped_first (l : List Rec) (nm : String)
    (hnat : ((cappedOf l).filter (fun t => t.1.name = nm)).any
      (fun t => t.1.date = none) = true) :
    ((sortByDate (classify l)).filter (fun t => t.1.name = nm)).Pairwise
        (fun x y => x.1.date = none → y.1.date = none)
    ∧ ((cappedOf l).filter (fun t => t.1.name = nm)).countP
          (fun t => t.1.date.isSome)
        = ((sortByDate (classify l)).filter
            (fun t => t.1.name = nm)).countP (fun t => t.1.date.isSome) := by
  have hpair := sorted_filter_name l nm
  constructor
  · exact hpair.imp (fun hxy hx => by
      rw [tdateLeP, tdateLe, hx] at hxy
      exact dateLe_none hxy)
  · rw [cappedOf_name_take] at hnat ⊢
    obtain ⟨x, hxmem, hxnone⟩ := List.any_eq_true.mp hnat
    have hxnone2 : x.1.date = none := of_decide_eq_true hxnone
    have hdrop : ∀ y ∈ ((sortByDate (classify l)).filter
        (fun t => t.1.name = nm)).drop 3, y.1.date = none := by
      intro y hy
      have := take_drop_dateLe l nm x hxmem y hy
      rw [tdateLeP, tdateLe, hxnone2] at this
      exact dateLe_none this
    have hdropzero : (((sortByDate (classify l)).filter
        (fun t => t.1.name = nm)).drop 3).countP
          (fun t => t.1.date.isSome) = 0 := by
      rw [List.countP_eq_zero]
      intro y hy
      rw [hdrop y hy]
      simp
    calc (((sortByDate (classify l)).filter
        (fun t => t.1.name = nm)).take 3).countP (fun t => t.1.date.isSome)
        = (((sortByDate (classify l)).filter
            (fun t => t.1.name = nm)).take 3).countP (fun t => t.1.date.isSome)
          + (((sortByDate (classify l)).filter
            (fun t => t.1.name = nm)).drop 3).countP
              (fun t => t.1.date.isSome) := by rw [hdropzero]; omega
      _ = ((sortByDate (classify l)).filter
            (fun t => t.1.name = nm)).countP (fun t => t.1.date.isSome) := by
          rw [← List.countP_append, List.take_append_drop]

def c7wit : List Rec :=
  [⟨"F", some "F", some 30, 1, none⟩,
   ⟨"F", some "F", some 30, 2, some 5⟩,
   ⟨"F", some "F", some 30, 4, some 2⟩]

/-- Witness for c7_missing_dates_dropped_first: participant "F" has two
dated records and one with a missing date; the missing-date record is
retained (only three records) and both dated records survive. -/
theorem c7_missing_dates_dropped_first_witness :
    ((cappedOf c7wit).filter (fun t => t.1.name = "F")).countP
        (fun t => t.1.date.isSome)
      = ((sortByDate (classify c7wit)).filter
          (fun t => t.1.name = "F")).countP (fun t => t.1.date.isSome) :=
  (c7_missing_dates_dropped_first c7wit "F" (by decide)).2

theorem countName_sortByDate (nm : String) (l : List TRec) :
    countName nm (sortByDate l) = countName nm l := by
  rw [countName, countName]
  exact ((sortByDate_perm l).filter _).length_eq

theorem limiter_sorted (l : List TRec) : (limiter l).Pairwise tdateLeP := by
  rw [limiter]
  exact (sortByDate_sorted l).sublist (capAppearances_sublist _)

theorem limiter_counts_le (nm : String) (l : List TRec) :
    countName nm (limiter l) ≤ 3 := by
  rw [limiter]
  exact countName_capAppearances_le nm _

/-- C8: on an input where every participant already has at most three
records, the limiter returns the same record set (a permutation — it
still re-sorts by date), and the limiter is idempotent. -/
theorem c8_limiter_noop (l : List TRec) (h : ∀ nm, countName nm l ≤ 3) :
    List.Perm (limiter l) l ∧ limiter (limiter l) = limiter l := by
  constructor
  · rw [limiter, capAppearances_all_kept (sortByDate l)
      (fun nm => by rw [countName_sortByDate]; exact h nm)]
    exact sortByDate_perm l
  · have hsorted := limiter_sorted l
    rw [limiter, sortByDate_of_sorted hsorted,
        capAppearances_all_kept (limiter l) (fun nm => limiter_counts_le nm l)]

/-- Witness for c8_limiter_noop: a two-record one-participant input is
re-sorted but otherwise untouched, and a second pass changes nothing. -/
theorem c8_limiter_noop_witness :
    List.Perm (limiter [((⟨"G", some "F", some 30, 1, some 7⟩ : Rec), none),
        ((⟨"G", some "F", some 30, 2, some 4⟩ : Rec), none)])
      [((⟨"G", some "F", some 30, 1, some 7⟩ : Rec), none),
        ((⟨"G", some "F", some 30, 2, some 4⟩ : Rec), none)]
    ∧ limiter (limiter [((⟨"G", some "F", some 30, 1, some 7⟩ : Rec), none),
        ((⟨"G", some "F", some 30, 2, some 4⟩ : Rec), none)])
      = limiter [((⟨"G", some "F", some 30, 1, some 7⟩ : Rec), none),
        ((⟨"G", some "F", some 30, 2, some 4⟩ : Rec), none)] :=
  c8_limiter_noop _ (by
    intro nm
    rw [countName]
    exact le_trans (List.length_filter_le _ _) (by decide))

theorem process_keys_perm (l : List Rec) :
    List.Perm ((process_novice l).map
        (fun row => (row.name, row.sex, row.division)))
      (keysOf (cappedOf l)) := by
  rw [process_novice, rankStage, List.map_map]
  have h1 : List.Perm ((sortAgg (aggRows (cappedOf l))).map
      (fun x : AggRow => (x.name, x.sex, x.division)))
      ((aggRows (cappedOf l)).map
        (fun x : AggRow => (x.name, x.sex, x.division))) :=
    (List.perm_insertionSort dotsGeP _).map _
  have h2 : (aggRows (cappedOf l)).map
      (fun x : AggRow => (x.name, x.sex, x.division)) = keysOf (cappedOf l) := by
    rw [aggRows, List.map_map]
    exact List.map_id _
  exact (h2 ▸ h1 : _)

/-- C10: the appearance cap is keyed by Name alone — the records of a
name surviving the cap are exactly the first three of that name in
date-sorted order, regardless of sex or division, so at most 3 jointly;
yet the output has exactly one row per distinct (name, sex, division)
key realized in the capped set. -/
theorem c10_cap_by_name_only (l : List Rec) (nm : String) :
    (cappedOf l).filter (fun t => t.1.name = nm)
        = ((sortByDate (classify l)).filter (fun t => t.1.name = nm)).take 3
      ∧ countName nm (cappedOf l) ≤ 3
      ∧ ((process_novice l).map
          (fun row => (row.name, row.sex, row.division))).Nodup
      ∧ ∀ k : Key, k ∈ (process_novice l).map
            (fun row => (row.name, row.sex, row.division))
          ↔ ∃ t ∈ cappedOf l, validKey t = some k := by
  refine ⟨cappedOf_name_take l nm, ?_, ?_, ?_⟩
  · rw [cappedOf, limiter]
    exact countName_capAppearances_le nm _
  · exact ((process_keys_perm l).nodup_iff).mpr (keysOf_nodup _)
  · intro k
    rw [(process_keys_perm l).mem_iff]
    exact mem_keysOf

def c2wit : List Rec :=
  [⟨"Q", some "M", some 30, 450, some 1⟩,
   ⟨"P", some "M", some 30, 500, some 1⟩,
   ⟨"R", some "M", some 30, 450, some 1⟩]

/-- Witness for c2_rank_properties at the spec's tie scenario: the
500-scorer outranks a 450-scorer in Open Men. -/
theorem c2_rank_properties_witness :
    (⟨"P", "M", "Open Men", 500, 1⟩ : RankedRow).rank
      < (⟨"Q", "M", "Open Men", 450, 2⟩ : RankedRow).rank :=
  (c2_rank_properties c2wit ⟨"P", "M", "Open Men", 500, 1⟩
    ⟨"Q", "M", "Open Men", 450, 2⟩ (by decide) (by decide) (by decide)).1
    (by decide)
